import Mathlib

/-!
Verification of the streaming XML tool-call interception core
(src/core/tools/systemMessageTools/interceptXmlToolCalls.ts).

Text is modelled as List Char.  The driver interceptXMLToolCalls is
transcribed from the source; the helper modules it imports
(detectToolCallStart, parsePartialXml, getStringDelta,
splitAtTagsAndCodeblocks, renderChatMessage, generateOpenAIToolCallId)
are not part of the reviewed sources, so they are modelled from the
specification (sections 4.1-4.4, 6).
-/

namespace Intercept

/-- Text, modelled as a list of characters. -/
abbrev Str := List Char

/-- Convert a Lean string literal to the Str model. -/
def strL (s : String) : Str := s.toList

/-- Split a string at the first occurrence of a pattern: returns
(text before the occurrence, text after it), or none when the pattern
does not occur. -/
def splitFirst (pat : Str) : Str → Option (Str × Str)
  | [] => if pat = [] then some ([], []) else none
  | c :: rest =>
    if pat.isPrefixOf (c :: rest) then some ([], (c :: rest).drop pat.length)
    else
      match splitFirst pat rest with
      | some (pre, post) => some (c :: pre, post)
      | none => none

/-- Whether pat occurs in s as a contiguous substring. -/
def containsSubstr (s pat : Str) : Bool := (splitFirst pat s).isSome

/-- Length of the longest common prefix of two strings. -/
def commonPrefixLength : Str → Str → Nat
  | a :: as, b :: bs => if a = b then commonPrefixLength as bs + 1 else 0
  | _, _ => 0

/-- Modelled from the spec: getStringDelta (xmlToolUtils.ts, not among the
reviewed sources).  Section 4.4: returns the suffix-append transforming the
previous string into the new one when the new one extends the old by
appending; otherwise falls back to replace-from-first-point-of-divergence. -/
def getStringDelta (prev new : Str) : Str :=
  if prev.isPrefixOf new then new.drop prev.length
  else new.drop (commonPrefixLength prev new)

/-- The fixed call-opening marker. -/
def OPEN_MARKER : Str := strL "<tool_call>"

/-- The fixed call-closing marker. -/
def CLOSE_MARKER : Str := strL "</tool_call>"

/-- Result record of the call-start detector, field names as in the source
driver's destructuring. -/
structure DetectResult where
  isInPartialStart : Bool
  isInToolCall : Bool
  modifiedBuffer : Str
  deriving DecidableEq, Repr

/-- Modelled from the spec: detectToolCallStart (detectToolCallStart.ts, not
among the reviewed sources).  Section 4.2: case-sensitively compare the
buffer with the opening marker; buffer containing the marker anywhere is a
confirmed call start whose residual buffer is the text after the first
occurrence of the marker; a strict non-empty prefix of the marker is
ambiguous; anything else is definitely plain text. -/
def detectToolCallStart (buffer : Str) : DetectResult :=
  match splitFirst OPEN_MARKER buffer with
  | some (_, post) => ⟨false, true, post⟩
  | none =>
    if buffer ≠ [] ∧ buffer.isPrefixOf OPEN_MARKER then ⟨true, false, buffer⟩
    else ⟨false, false, buffer⟩

/-- Modelled from the spec: splitAtTagsAndCodeblocks (xmlToolUtils.ts, not
among the reviewed sources).  Section 4.1 / driver comment "split at tag
starts/ends e.g. < >": cut the fragment before every opening angle bracket
and after every closing angle bracket, so concatenation of the pieces
reproduces the input and no piece has an internal angle-bracket boundary.
(The fenced-code-block cut points the spec also mentions would only add
further cuts; no claim below depends on them.) -/
def splitTagsAux : Str → Str → List Str
  | acc, [] => if acc = [] then [] else [acc]
  | acc, c :: rest =>
    if c = '<' then
      (if acc = [] then [] else [acc]) ++ splitTagsAux ['<'] rest
    else if c = '>' then
      (acc ++ ['>']) :: splitTagsAux [] rest
    else splitTagsAux (acc ++ [c]) rest

/-- Entry point of the tag-boundary splitter. -/
def splitAtTagsAndCodeblocks (s : Str) : List Str := splitTagsAux [] s

/-- JSON-like values produced by the tolerant markup parser: scalar leaves
(with numeric and boolean coercion) and nested objects. -/
inductive JVal where
  | jstr (s : Str)
  | jnum (n : Int)
  | jbool (b : Bool)
  | jobj (fields : List (Str × JVal))

/-- Digits of a natural number, most significant first. -/
def natToStr (n : Nat) : Str := Nat.toDigits 10 n

/-- Decimal rendering of an integer. -/
def intToStr (i : Int) : Str :=
  if i < 0 then '-' :: natToStr i.natAbs else natToStr i.natAbs

/-- JSON string escaping for quotes and backslashes. -/
def escapeStr (s : Str) : Str :=
  s.foldr (fun c acc =>
    if c = '"' then '\\' :: '"' :: acc
    else if c = '\\' then '\\' :: '\\' :: acc
    else c :: acc) []

/-- A JSON-quoted string. -/
def quoteStr (s : Str) : Str := '"' :: (escapeStr s ++ ['"'])

mutual

/-- JSON serialization of a value (the model of JSON.stringify as the
driver applies it to the parsed args object). -/
def JVal.stringify : JVal → Str
  | .jstr s => quoteStr s
  | .jnum n => intToStr n
  | .jbool b => if b then strL "true" else strL "false"
  | .jobj fs => '{' :: (stringifyFields fs ++ ['}'])

/-- Serialization of the comma-separated field list of an object. -/
def stringifyFields : List (Str × JVal) → Str
  | [] => []
  | (k, v) :: rest =>
    match rest with
    | [] => quoteStr k ++ (':' :: v.stringify)
    | _ => quoteStr k ++ (':' :: v.stringify) ++ (',' :: stringifyFields rest)

end

/-- Characters allowed in an element name. -/
def isNameChar (c : Char) : Bool := c.isAlphanum || c = '_'

/-- Whether the string is a nonempty run of decimal digits. -/
def isDigitStr (s : Str) : Bool := !s.isEmpty && s.all Char.isDigit

/-- Whether the string looks like a (possibly negative) decimal integer. -/
def isNumericStr : Str → Bool
  | '-' :: rest => isDigitStr rest
  | s => isDigitStr s

/-- Numeric value of a digit string. -/
def digitsToNat (s : Str) : Nat :=
  s.foldl (fun n c => n * 10 + (c.toNat - '0'.toNat)) 0

/-- Integer value of a numeric-looking string. -/
def strToInt : Str → Int
  | '-' :: rest => -(digitsToNat rest : Int)
  | s => (digitsToNat s : Int)

/-- Leading and trailing whitespace removed. -/
def trimBoth (s : Str) : Str :=
  ((s.dropWhile Char.isWhitespace).reverse.dropWhile Char.isWhitespace).reverse

/-- Scalar leaf coercion of the tolerant parser (spec section 4.3):
true/false literals become booleans, numeric-looking text becomes a
number, everything else stays a string. -/
def coerceLeaf (s : Str) : JVal :=
  if s = strL "true" then .jbool true
  else if s = strL "false" then .jbool false
  else if isNumericStr s then .jnum (strToInt s)
  else .jstr s

/-- The closing tag of an element with the given name. -/
def closeTagOf (name : Str) : Str := '<' :: '/' :: (name ++ ['>'])

mutual

/-- Modelled from the spec: the element-sequence part of parsePartialXml
(parsePartialXmlToolCall.ts, not among the reviewed sources).  Section 4.3:
lenient parsing of a sequence of elements; an unterminated element is
parsed using the content up to the truncation point and ends the sequence;
a tag truncated before its closing angle bracket contributes nothing yet;
clearly malformed text (stray text between elements, a broken tag) yields
no result rather than an error.  The first argument is recursion fuel,
instantiated with the text length plus one at the top entry. -/
def parseElems : Nat → Str → Option (List (Str × JVal))
  | 0, _ => none
  | fuel + 1, s =>
    match s.dropWhile Char.isWhitespace with
    | [] => some []
    | '<' :: rest =>
      let name := rest.takeWhile isNameChar
      match rest.dropWhile isNameChar with
      | [] => some []
      | '>' :: body =>
        if name = [] then none
        else
          match splitFirst (closeTagOf name) body with
          | some (content, rest2) =>
            match parseElems fuel rest2 with
            | some fs => some ((name, parseBody fuel content) :: fs)
            | none => none
          | none => some [(name, parseBody fuel body)]
      | _ => none
    | _ => none

/-- Modelled from the spec: the element-content part of parsePartialXml.
Content whose trimmed form starts another tag is parsed as a nested
object (falling back to a raw string leaf when that fails); otherwise it
is a scalar leaf with coercion. -/
def parseBody : Nat → Str → JVal
  | 0, b => .jstr b
  | fuel + 1, b =>
    let t := trimBoth b
    if t.head? = some '<' then
      match parseElems fuel t with
      | some fs => .jobj fs
      | none => .jstr t
    else coerceLeaf t

end

/-- The produced tool-call record: the resolved tool name (nonempty) and
the argument fields when the args container element has been parsed.
Mirrors the parsed.tool_call.tool_name / parsed.tool_call.args accesses of
the driver; returning none models both a null parse and a missing or empty
(falsy) tool name. -/
structure ParsedCall where
  tool_name : Str
  args : Option (List (Str × JVal))

/-- First field with the given key. -/
def lookupField : List (Str × JVal) → Str → Option JVal
  | [], _ => none
  | (k, v) :: rest, key => if k = key then some v else lookupField rest key

/-- Modelled from the spec: parsePartialXml (parsePartialXmlToolCall.ts,
not among the reviewed sources).  Section 4.3: reparse the full call text
accumulated so far (the text after the opening marker), considering only
the document up to the closing marker when one is present; produce a
result only when a tool name is resolvable (nonempty), together with the
argument object when the args container element is present. -/
def parsePartialXml (t : Str) : Option ParsedCall :=
  let doc := match splitFirst CLOSE_MARKER t with
    | some (pre, _) => pre
    | none => t
  match parseElems (doc.length + 1) doc with
  | none => none
  | some fs =>
    match lookupField fs (strL "tool_name") with
    | some (.jstr nm) =>
      if nm = [] then none
      else
        some ⟨nm, match lookupField fs (strL "args") with
                  | some (.jobj afs) => some afs
                  | _ => none⟩
    | _ => none

/-- Serialized arguments string the driver computes from a parse result:
JSON.stringify of the args object when present, the empty string
otherwise. -/
def argsString (p : ParsedCall) : Str :=
  match p.args with
  | some fs => JVal.stringify (.jobj fs)
  | none => []

/-- An OpenAI-style tool-call delta: the stable call identifier, the tool
name and the incremental arguments fragment (the constant type field and
the function wrapper of the source record are flattened away). -/
structure ToolCallDelta where
  id : Str
  name : Str
  arguments : Str
  deriving DecidableEq, Repr

/-- A chat message: role, text content and optional native structured tool
calls.  renderChatMessage of the source is modelled as the content field
itself (the structured-parts-to-text rendering is presentation plumbing
the spec puts out of scope). -/
structure ChatMessage where
  role : Str
  content : Str
  toolCalls : Option (List ToolCallDelta)
  deriving DecidableEq, Repr

/-- The upstream generator's final value (a log of the completed
exchange); treated as opaque. -/
structure PromptLog where
  raw : Str
  deriving DecidableEq, Repr

/-- The driver's mutable locals (interceptXmlToolCalls.ts lines 25-30),
plus the counter of the injected identifier generator (spec section 6
treats identifier generation as an external collaborator; the counter
records how many identifiers have been drawn). -/
structure DriverState where
  toolCallText : Str
  currentToolCallId : Option Str
  currentToolCallArgs : Str
  inToolCall : Bool
  done : Bool
  buffer : Str
  idCounter : Nat
  deriving DecidableEq, Repr

/-- The driver's initial state. -/
def initialState : DriverState :=
  { toolCallText := [], currentToolCallId := none, currentToolCallArgs := []
    inToolCall := false, done := false, buffer := [], idCounter := 0 }

/-- One iteration of the inner chunk loop of interceptXMLToolCalls
(lines 54-126): append the chunk to the buffer; run the call-start
detector while not yet inside a call (keeping the buffer on an ambiguous
prefix); inside a call, allocate the identifier if absent, accumulate the
call text, reparse it, emit a delta when a tool name is resolvable and
close the call when the accumulated text contains the closing marker;
outside a call, emit the buffer as plain text.  Returns the yielded
messages and the successor state. -/
def processChunk (idGen : Nat → Str) (msg : ChatMessage) (st : DriverState)
    (chunk : Str) : List ChatMessage × DriverState :=
  let buffer := st.buffer ++ chunk
  let d := detectToolCallStart buffer
  if !st.inToolCall && d.isInPartialStart then
    ([], { st with buffer := buffer })
  else
    let inCall : Bool := st.inToolCall || d.isInToolCall
    let buffer := if st.inToolCall then buffer else
      if d.isInToolCall then d.modifiedBuffer else buffer
    if inCall then
      let idc : Str × Nat :=
        match st.currentToolCallId with
        | some i => (i, st.idCounter)
        | none => (idGen st.idCounter, st.idCounter + 1)
      let tct := st.toolCallText ++ buffer
      match parsePartialXml tct with
      | none =>
        ([], { st with inToolCall := true, currentToolCallId := some idc.1,
                       idCounter := idc.2, toolCallText := tct, buffer := [] })
      | some p =>
        let args := argsString p
        let delta := getStringDelta st.currentToolCallArgs args
        let ev : ChatMessage :=
          { msg with content := [],
                     toolCalls := some [⟨idc.1, p.tool_name, delta⟩] }
        if containsSubstr tct CLOSE_MARKER then
          ([ev], { toolCallText := [], currentToolCallId := none,
                   currentToolCallArgs := [], inToolCall := false,
                   done := true, buffer := buffer, idCounter := idc.2 })
        else
          ([ev], { st with inToolCall := true, currentToolCallId := some idc.1,
                           idCounter := idc.2, toolCallText := tct,
                           currentToolCallArgs := args, buffer := [] })
    else
      ([{ msg with content := buffer }], { st with buffer := [] })

/-- The chunk loop over the split content of one message, with the break
on call close (done set by processChunk ends the loop early). -/
def processChunks (idGen : Nat → Str) (msg : ChatMessage) :
    DriverState → List Str → List ChatMessage × DriverState
  | st, [] => ([], st)
  | st, c :: cs =>
    let r := processChunk idGen msg st c
    if r.2.done then r
    else
      let r2 := processChunks idGen msg r.2 cs
      (r.1 ++ r2.1, r2.2)

/-- Processing of one upstream message (lines 44-52): non-assistant
messages and messages already carrying native tool calls pass through
unmodified as a single yield without touching the state; other messages
are rendered, split at tag boundaries and run through the chunk loop. -/
def processMessage (idGen : Nat → Str) (st : DriverState) (m : ChatMessage) :
    List ChatMessage × DriverState :=
  if m.role ≠ strL "assistant" ∨ m.toolCalls ≠ none then ([m], st)
  else processChunks idGen m st (splitAtTagsAndCodeblocks m.content)

/-- The message loop over one upstream batch, with the break that skips
every remaining message once done is set. -/
def processBatch (idGen : Nat → Str) :
    DriverState → List ChatMessage → List ChatMessage × DriverState
  | st, [] => ([], st)
  | st, m :: ms =>
    if st.done then ([], st)
    else
      let r := processMessage idGen st m
      let r2 := processBatch idGen r.2 ms
      (r.1 ++ r2.1, r2.2)

/-- Whether the cancellation signal has been raised by outer iteration i:
the signal is set exactly once, at iteration index k. -/
def abortedAt (abortAt : Option Nat) (i : Nat) : Bool :=
  match abortAt with
  | none => false
  | some k => k ≤ i

/-- The outer loop of interceptXMLToolCalls (lines 32-43): before each
upstream pull check the cancellation signal (setting done, which
suppresses every later yield but keeps pulling); when the upstream is
exhausted, return its final value unchanged.  The upstream is modelled as
the list of its batches followed by its final value; the result is the
list of yielded messages, the final driver state and the returned value. -/
def interceptRun (idGen : Nat → Str) (abortAt : Option Nat) :
    DriverState → Nat → List (List ChatMessage) → Option PromptLog →
    List ChatMessage × DriverState × Option PromptLog
  | st, _, [], fin => ([], st, fin)
  | st, i, batch :: rest, fin =>
    let st0 := if abortedAt abortAt i then { st with done := true } else st
    let r := processBatch idGen st0 batch
    let r2 := interceptRun idGen abortAt r.2 (i + 1) rest fin
    (r.1 ++ r2.1, r2.2)

/-- The whole interception generator: run from the initial state, return
the yielded messages (each source yield is a singleton message list,
modelled as the message itself) and the propagated final value. -/
def interceptXMLToolCalls (idGen : Nat → Str) (abortAt : Option Nat)
    (batches : List (List ChatMessage)) (fin : Option PromptLog) :
    List ChatMessage × Option PromptLog :=
  let r := interceptRun idGen abortAt initialState 0 batches fin
  (r.1, r.2.2)

/-- A concrete injected identifier generator for witness runs. -/
def defaultIdGen (n : Nat) : Str := strL "call_" ++ natToStr n

/-- An assistant message without native tool calls carrying the given
text. -/
def mkAssistant (c : Str) : ChatMessage :=
  { role := strL "assistant", content := c, toolCalls := none }

/-- A run over a plain assistant text stream: each fragment arrives as
its own single-message batch, with no cancellation and no final value. -/
def runText (cs : List Str) : List ChatMessage × Option PromptLog :=
  interceptXMLToolCalls defaultIdGen none (cs.map (fun c => [mkAssistant c])) none

/-- Concatenated contents of the plain-text events of an output. -/
def plainConcat (evs : List ChatMessage) : Str :=
  (evs.filter (fun e => e.toolCalls = none)).foldr (fun e acc => e.content ++ acc) []

/-- Concatenated argumentsDelta fragments of the tool-call delta events
of an output, in emission order. -/
def deltasConcat (evs : List ChatMessage) : Str :=
  evs.foldr (fun e acc =>
    (match e.toolCalls with
     | some [d] => d.arguments
     | _ => []) ++ acc) []

end Intercept

namespace Intercept

/-- The accumulator contents reached while folding a chunk list into the
call accumulator: element j is the accumulated call text after chunks
0..j have been appended to the initial text t. -/
def prefixAccs (t : Str) : List Str → List Str
  | [] => []
  | c :: cs => (t ++ c) :: prefixAccs (t ++ c) cs

/-- Concatenation of a list of strings. -/
def concatStrs : List Str → Str
  | [] => []
  | c :: cs => c ++ concatStrs cs

/-- Every chunk replaced by its tag-boundary pieces, each piece delivered
as its own fragment. -/
def splitAll : List Str → List Str
  | [] => []
  | c :: cs => splitAtTagsAndCodeblocks c ++ splitAll cs

theorem interceptRun_fin (g : Nat → Str) (a : Option Nat) :
    ∀ (bs : List (List ChatMessage)) (st : DriverState) (i : Nat)
      (fin : Option PromptLog), (interceptRun g a st i bs fin).2.2 = fin := by
  intro bs
  induction bs with
  | nil => intro st i fin; rfl
  | cons b rest ih => intro st i fin; simp [interceptRun, ih]

theorem processBatch_done (g : Nat → Str) :
    ∀ (ms : List ChatMessage) (st : DriverState), st.done = true →
    processBatch g st ms = ([], st) := by
  intro ms st h
  cases ms with
  | nil => rfl
  | cons m ms => simp [processBatch, h]

theorem interceptRun_done (g : Nat → Str) (a : Option Nat) :
    ∀ (bs : List (List ChatMessage)) (st : DriverState) (i : Nat)
      (fin : Option PromptLog), st.done = true →
    (interceptRun g a st i bs fin).1 = [] := by
  intro bs
  induction bs with
  | nil => intro st i fin _; rfl
  | cons b rest ih =>
    intro st i fin h
    have hmk : ∀ st' : DriverState, st'.done = true →
        (processBatch g st' b).1 = [] ∧ (processBatch g st' b).2.done = true := by
      intro st' h'
      rw [processBatch_done g b st' h']
      exact ⟨rfl, h'⟩
    simp only [interceptRun]
    by_cases ha : abortedAt a i = true
    · simp only [ha, if_pos]
      have h1 := hmk { st with done := true } rfl
      simp [h1.1, ih _ _ _ h1.2]
    · simp only [ha]
      have h1 := hmk st h
      simp [h1.1, ih _ _ _ h1.2]

theorem abortedAt_some_true {k i : Nat} (h : k ≤ i) :
    abortedAt (some k) i = true := by
  simp [abortedAt, h]

theorem abortedAt_some_false {k i : Nat} (h : i < k) :
    abortedAt (some k) i = false := by
  simp [abortedAt]
  omega

theorem interceptRun_abort_ge (g : Nat → Str) (k : Nat) :
    ∀ (bs : List (List ChatMessage)) (st : DriverState) (i : Nat)
      (fin : Option PromptLog), k ≤ i →
    (interceptRun g (some k) st i bs fin).1 = [] := by
  intro bs
  induction bs with
  | nil => intro st i fin _; rfl
  | cons b rest ih =>
    intro st i fin h
    simp only [interceptRun, abortedAt_some_true h, if_pos]
    rw [processBatch_done g b { st with done := true } rfl]
    simp [ih _ (i + 1) _ (Nat.le_succ_of_le h)]

theorem interceptRun_abort_take (g : Nat → Str) (k : Nat) :
    ∀ (bs : List (List ChatMessage)) (st : DriverState) (i : Nat)
      (fin : Option PromptLog),
    (interceptRun g (some k) st i bs fin).1 =
      (interceptRun g none st i (bs.take (k - i)) fin).1 := by
  intro bs
  induction bs with
  | nil => intro st i fin; simp [interceptRun]
  | cons b rest ih =>
    intro st i fin
    rcases le_or_lt k i with h | h
    · rw [interceptRun_abort_ge g k _ st i fin h]
      have : k - i = 0 := Nat.sub_eq_zero_of_le h
      simp [this, interceptRun]
    · have hk : k - i = (k - (i + 1)) + 1 := by omega
      have hd : decide (k ≤ i) = false := decide_eq_false (Nat.not_le.mpr h)
      rw [hk]
      simp only [interceptRun, List.take_succ_cons, abortedAt, hd]
      simp only [Bool.false_eq_true, if_false]
      rw [ih]

/-- C9: when the upstream generator finishes, the interception generator
returns exactly the upstream's optional final value unchanged, on every
run (including runs where a captured call set the single-call stop before
the upstream was exhausted, and aborted runs). -/
theorem interceptFinalValuePropagated (g : Nat → Str) (a : Option Nat)
    (bs : List (List ChatMessage)) (fin : Option PromptLog) :
    (interceptXMLToolCalls g a bs fin).2 = fin := by
  simp [interceptXMLToolCalls, interceptRun_fin]

/-- C8: a message whose role is not assistant, or that already carries
native structured tool calls, is re-emitted as a single pass-through
event with every field unchanged, and the driver state (buffer,
accumulator, call id, in-call flag, done flag, id counter) is exactly the
state before. -/
theorem interceptPassThrough (g : Nat → Str) (st : DriverState)
    (m : ChatMessage) (h : m.role ≠ strL "assistant" ∨ m.toolCalls ≠ none) :
    processMessage g st m = ([m], st) := by
  simp only [processMessage, if_pos h]

theorem interceptPassThroughWitness :
    processMessage defaultIdGen initialState
        { role := strL "user", content := strL "hi", toolCalls := none }
      = ([{ role := strL "user", content := strL "hi", toolCalls := none }],
         initialState) :=
  interceptPassThrough defaultIdGen initialState _ (Or.inl (by decide))

/-- C7: if the cancellation signal is raised before outer iteration k, the
driver's output events are exactly those of the uncancelled run on the
first k upstream batches — no event at all when cancelled before any
batch, and exactly the already-emitted deltas with no flush of partial
call state when cancelled mid-call — while the upstream's final value is
still propagated. -/
theorem interceptCancellationStopsOutput (g : Nat → Str) (k : Nat)
    (bs : List (List ChatMessage)) (fin : Option PromptLog) :
    (interceptXMLToolCalls g (some k) bs fin).1 =
      (interceptXMLToolCalls g none (bs.take k) fin).1 ∧
    (interceptXMLToolCalls g (some k) bs fin).2 = fin := by
  constructor
  · simp only [interceptXMLToolCalls]
    have := interceptRun_abort_take g k bs initialState 0 fin
    simpa using this
  · exact interceptFinalValuePropagated g (some k) bs fin

end Intercept

namespace Intercept

theorem processChunk_inCall_none (g : Nat → Str) (msg : ChatMessage)
    (st : DriverState) (c : Str) (I : Str)
    (hIn : st.inToolCall = true) (hBuf : st.buffer = [])
    (hId : st.currentToolCallId = some I)
    (hp : parsePartialXml (st.toolCallText ++ c) = none) :
    processChunk g msg st c =
      ([], { st with toolCallText := st.toolCallText ++ c }) := by
  cases st
  simp only at hIn hBuf hId
  subst hIn hBuf hId
  simp [processChunk, hp]

theorem processChunks_noName (g : Nat → Str) (msg : ChatMessage) :
    ∀ (chunks : List Str) (st : DriverState) (I : Str),
    st.inToolCall = true → st.done = false → st.buffer = [] →
    st.currentToolCallId = some I →
    (∀ x ∈ prefixAccs st.toolCallText chunks, parsePartialXml x = none) →
    processChunks g msg st chunks =
      ([], { st with toolCallText := st.toolCallText ++ concatStrs chunks }) := by
  intro chunks
  induction chunks with
  | nil =>
    intro st I h1 h2 h3 h4 _
    simp [processChunks, concatStrs]
  | cons c cs ih =>
    intro st I h1 h2 h3 h4 h5
    obtain ⟨t, cid, ca, itc, dn, buf, ctr⟩ := st
    simp only at h1 h2 h3 h4 h5 ⊢
    subst h1 h2 h3 h4
    have hp : parsePartialXml (t ++ c) = none :=
      h5 _ (by simp [prefixAccs])
    have hstep := processChunk_inCall_none g msg
      ⟨t, some I, ca, true, false, [], ctr⟩ c I rfl rfl rfl hp
    simp only at hstep
    have htail : ∀ x ∈ prefixAccs (t ++ c) cs, parsePartialXml x = none := by
      intro x hx
      exact h5 x (by simp [prefixAccs, hx])
    have hih := ih ⟨t ++ c, some I, ca, true, false, [], ctr⟩ I
      rfl rfl rfl rfl htail
    simp only at hih
    simp only [processChunks, hstep, Bool.false_eq_true, if_false]
    rw [hih]
    simp [concatStrs, List.append_assoc]

/-- C2: while no tool name is resolvable from the accumulated call text,
the driver emits no event at all for call-interior content — no
ToolCallDelta is emitted before a name has been resolved, no plain text
is emitted for the accumulated content, and if the name never resolves
for the rest of the stream the content is permanently swallowed: the
events are empty, every fragment is silently accumulated into the call
text, and no error state is entered. -/
theorem interceptNoEventsWhileNameUnresolved (g : Nat → Str)
    (msg : ChatMessage) (chunks : List Str) (st : DriverState) (I : Str)
    (hIn : st.inToolCall = true) (hDone : st.done = false)
    (hBuf : st.buffer = []) (hId : st.currentToolCallId = some I)
    (hNoName : ∀ x ∈ prefixAccs st.toolCallText chunks,
      parsePartialXml x = none) :
    (processChunks g msg st chunks).1 = [] ∧
    (processChunks g msg st chunks).2.toolCallText =
      st.toolCallText ++ concatStrs chunks ∧
    (processChunks g msg st chunks).2.done = false := by
  rw [processChunks_noName g msg chunks st I hIn hDone hBuf hId hNoName]
  exact ⟨rfl, rfl, hDone⟩

theorem interceptNoEventsWhileNameUnresolvedWitness :
    (processChunks defaultIdGen (mkAssistant [])
        { toolCallText := strL "garbage", currentToolCallId := some (strL "id0"),
          currentToolCallArgs := [], inToolCall := true, done := false,
          buffer := [], idCounter := 1 }
        [strL "more", strL "</tool_call>"]).1 = [] ∧
    (processChunks defaultIdGen (mkAssistant [])
        { toolCallText := strL "garbage", currentToolCallId := some (strL "id0"),
          currentToolCallArgs := [], inToolCall := true, done := false,
          buffer := [], idCounter := 1 }
        [strL "more", strL "</tool_call>"]).2.toolCallText =
      strL "garbage" ++ concatStrs [strL "more", strL "</tool_call>"] ∧
    (processChunks defaultIdGen (mkAssistant [])
        { toolCallText := strL "garbage", currentToolCallId := some (strL "id0"),
          currentToolCallArgs := [], inToolCall := true, done := false,
          buffer := [], idCounter := 1 }
        [strL "more", strL "</tool_call>"]).2.done = false :=
  interceptNoEventsWhileNameUnresolved defaultIdGen (mkAssistant [])
    [strL "more", strL "</tool_call>"] _ (strL "id0")
    rfl rfl rfl rfl (by
      intro x hx
      simp only [prefixAccs, List.mem_cons, List.not_mem_nil, or_false] at hx
      rcases hx with h | h <;> (subst h; rfl))

/-- C10: inside a call, the closing-marker check only runs on steps where
the parser resolved a tool name; with an accumulated text that already
contains the closing marker but from which no name is ever resolvable,
the state is never reset, the interception never terminates, and every
remaining fragment — including text after the closing marker — is
accumulated into the call and never emitted. -/
theorem interceptCloseCheckRequiresName (g : Nat → Str)
    (msg : ChatMessage) (chunks : List Str) (st : DriverState) (I : Str)
    (hIn : st.inToolCall = true) (hDone : st.done = false)
    (hBuf : st.buffer = []) (hId : st.currentToolCallId = some I)
    (hClose : containsSubstr st.toolCallText CLOSE_MARKER = true)
    (hNoName : ∀ x ∈ prefixAccs st.toolCallText chunks,
      parsePartialXml x = none) :
    (processChunks g msg st chunks).1 = [] ∧
    (processChunks g msg st chunks).2.inToolCall = true ∧
    (processChunks g msg st chunks).2.done = false ∧
    (processChunks g msg st chunks).2.toolCallText =
      st.toolCallText ++ concatStrs chunks := by
  rw [processChunks_noName g msg chunks st I hIn hDone hBuf hId hNoName]
  exact ⟨rfl, hIn, hDone, rfl⟩

theorem interceptCloseCheckRequiresNameWitness :
    containsSubstr (strL "garbage</tool_call>") CLOSE_MARKER = true ∧
    ((processChunks defaultIdGen (mkAssistant [])
        { toolCallText := strL "garbage</tool_call>",
          currentToolCallId := some (strL "id0"),
          currentToolCallArgs := [], inToolCall := true, done := false,
          buffer := [], idCounter := 1 }
        [strL "after"]).1 = [] ∧
     (processChunks defaultIdGen (mkAssistant [])
        { toolCallText := strL "garbage</tool_call>",
          currentToolCallId := some (strL "id0"),
          currentToolCallArgs := [], inToolCall := true, done := false,
          buffer := [], idCounter := 1 }
        [strL "after"]).2.inToolCall = true ∧
     (processChunks defaultIdGen (mkAssistant [])
        { toolCallText := strL "garbage</tool_call>",
          currentToolCallId := some (strL "id0"),
          currentToolCallArgs := [], inToolCall := true, done := false,
          buffer := [], idCounter := 1 }
        [strL "after"]).2.done = false ∧
     (processChunks defaultIdGen (mkAssistant [])
        { toolCallText := strL "garbage</tool_call>",
          currentToolCallId := some (strL "id0"),
          currentToolCallArgs := [], inToolCall := true, done := false,
          buffer := [], idCounter := 1 }
        [strL "after"]).2.toolCallText =
       strL "garbage</tool_call>" ++ concatStrs [strL "after"]) :=
  ⟨by decide,
   interceptCloseCheckRequiresName defaultIdGen (mkAssistant [])
     [strL "after"] _ (strL "id0") rfl rfl rfl rfl (by decide) (by
      intro x hx
      simp only [prefixAccs, List.mem_cons, List.not_mem_nil, or_false] at hx
      subst hx; rfl)⟩

end Intercept

namespace Intercept

theorem processChunk_inCall_emit (g : Nat → Str) (msg : ChatMessage)
    (st : DriverState) (c : Str) (I : Str) (p : ParsedCall)
    (hIn : st.inToolCall = true) (hBuf : st.buffer = [])
    (hId : st.currentToolCallId = some I)
    (hp : parsePartialXml (st.toolCallText ++ c) = some p) :
    processChunk g msg st c =
      ([{ msg with
            content := [],
            toolCalls := some [⟨I, p.tool_name,
              getStringDelta st.currentToolCallArgs (argsString p)⟩] }],
       if containsSubstr (st.toolCallText ++ c) CLOSE_MARKER then
         { toolCallText := [], currentToolCallId := none,
           currentToolCallArgs := [], inToolCall := false, done := true,
           buffer := c, idCounter := st.idCounter }
       else
         { st with toolCallText := st.toolCallText ++ c,
                   currentToolCallArgs := argsString p }) := by
  obtain ⟨t, cid, ca, itc, dn, buf, ctr⟩ := st
  simp only at hIn hBuf hId
  subst hIn hBuf hId
  simp only at hp
  simp only [processChunk, Bool.not_true, Bool.false_and, Bool.false_eq_true,
    if_false, Bool.true_or, List.nil_append, hp]
  by_cases hC : containsSubstr (t ++ c) CLOSE_MARKER = true
  · simp [hC, hp]
  · simp [hC, hp]

/-- C3 counterexample: a run whose accumulated call text comes to contain
the closing marker, yet no delta at all is emitted (the parser never
resolves a name, so the closing-marker check is never even reached): the
claim that the driver emits its final delta once the closing marker is in
the accumulated text is false. -/
theorem interceptCloseWithoutNameCounterexample :
    (interceptRun defaultIdGen none initialState 0
        ([strL "<tool_call>", strL "garbage</tool_call>", strL "after"].map
          (fun c => [mkAssistant c])) none).1 = [] ∧
    containsSubstr
      (interceptRun defaultIdGen none initialState 0
        ([strL "<tool_call>", strL "garbage</tool_call>", strL "after"].map
          (fun c => [mkAssistant c])) none).2.1.toolCallText
      CLOSE_MARKER = true := by
  constructor
  · rfl
  · rfl

/-- C3 (amended): at most one call is captured per run, and content after
the first closing marker is never processed, in this form: on a step where
the parser resolves a tool name and the accumulated text contains the
closing marker, the driver emits exactly that final delta and enters the
terminal done state; and from a done state no event is ever emitted for
any remaining message of any remaining batch.  (The unconditional form of
the claim is false: when no tool name is resolvable the closing marker is
never acted on and no final delta exists — see the counterexample.) -/
theorem interceptSingleCallPolicy :
    (∀ (g : Nat → Str) (msg : ChatMessage) (st : DriverState) (c : Str)
       (I : Str) (p : ParsedCall),
      st.inToolCall = true → st.buffer = [] →
      st.currentToolCallId = some I →
      parsePartialXml (st.toolCallText ++ c) = some p →
      containsSubstr (st.toolCallText ++ c) CLOSE_MARKER = true →
      (processChunk g msg st c).1 =
        [{ msg with
             content := [],
             toolCalls := some [⟨I, p.tool_name,
               getStringDelta st.currentToolCallArgs (argsString p)⟩] }] ∧
      (processChunk g msg st c).2.done = true) ∧
    (∀ (g : Nat → Str) (a : Option Nat) (st : DriverState) (i : Nat)
       (bs : List (List ChatMessage)) (fin : Option PromptLog),
      st.done = true → (interceptRun g a st i bs fin).1 = []) := by
  constructor
  · intro g msg st c I p hIn hBuf hId hp hClose
    rw [processChunk_inCall_emit g msg st c I p hIn hBuf hId hp]
    simp [hClose]
  · intro g a st i bs fin h
    exact interceptRun_done g a bs st i fin h

theorem interceptSingleCallPolicyWitness :
    ((processChunk defaultIdGen (mkAssistant [])
        { toolCallText := strL "<tool_name>foo</tool_name>",
          currentToolCallId := some (strL "id0"), currentToolCallArgs := [],
          inToolCall := true, done := false, buffer := [], idCounter := 1 }
        (strL "</tool_call>")).1 =
      [{ mkAssistant [] with
           content := [],
           toolCalls := some [⟨strL "id0", strL "foo",
             getStringDelta []
               (argsString ⟨strL "foo", none⟩)⟩] }] ∧
     (processChunk defaultIdGen (mkAssistant [])
        { toolCallText := strL "<tool_name>foo</tool_name>",
          currentToolCallId := some (strL "id0"), currentToolCallArgs := [],
          inToolCall := true, done := false, buffer := [], idCounter := 1 }
        (strL "</tool_call>")).2.done = true) ∧
    (interceptRun defaultIdGen none
      { initialState with done := true } 0
      [[mkAssistant (strL "later")]] none).1 = [] :=
  ⟨interceptSingleCallPolicy.1 defaultIdGen (mkAssistant []) _
     (strL "</tool_call>") (strL "id0") ⟨strL "foo", none⟩
     rfl rfl rfl rfl rfl,
   interceptSingleCallPolicy.2 defaultIdGen none _ 0
     [[mkAssistant (strL "later")]] none rfl⟩

/-- C6 counterexample: with buffered text preceding the opening marker
(one chunk holding an ambiguous angle bracket, the next completing the
marker), the run emits no plain-text event at all: the preceding text is
dropped, not flushed, so characters of the buffer are lost in the
transition — the claim that the driver flushes text preceding the marker
as PlainText with no characters dropped is false. -/
theorem interceptPrecedingTextDroppedCounterexample :
    (runText [strL "<", strL "<tool_call>x"]).1 = [] := by
  rfl

/-- C6 (amended): when the accumulated buffer contains the opening marker
as a substring, the text after the first occurrence of the marker becomes
the initial content of the call accumulator, but any text preceding the
marker is silently discarded — it is not flushed as a PlainText event
(here in the typical situation where the residual text does not yet
resolve to a parse: no event at all is emitted). -/
theorem interceptMarkerSplitsBuffer (g : Nat → Str) (msg : ChatMessage)
    (st : DriverState) (chunk pre post : Str)
    (hIn : st.inToolCall = false) (hT : st.toolCallText = [])
    (hSplit : splitFirst OPEN_MARKER (st.buffer ++ chunk) = some (pre, post))
    (hp : parsePartialXml post = none) :
    (processChunk g msg st chunk).1 = [] ∧
    (processChunk g msg st chunk).2.inToolCall = true ∧
    (processChunk g msg st chunk).2.toolCallText = post := by
  cases st
  simp only at hIn hT hSplit
  subst hIn hT
  simp [processChunk, detectToolCallStart, hSplit, hp]

theorem interceptMarkerSplitsBufferWitness :
    ((processChunk defaultIdGen (mkAssistant [])
        { initialState with buffer := strL "<" } (strL "<tool_call>x")).1 = [] ∧
     (processChunk defaultIdGen (mkAssistant [])
        { initialState with buffer := strL "<" }
        (strL "<tool_call>x")).2.inToolCall = true ∧
     (processChunk defaultIdGen (mkAssistant [])
        { initialState with buffer := strL "<" }
        (strL "<tool_call>x")).2.toolCallText = strL "x") :=
  interceptMarkerSplitsBuffer defaultIdGen (mkAssistant []) _
    (strL "<tool_call>x") (strL "<") (strL "x") rfl rfl rfl rfl

end Intercept

namespace Intercept

/-- Identifier-generation invariant: either no identifier has been drawn
yet (counter 0), or exactly the first generated identifier is the current
call id (counter 1). -/
def IdOk (g : Nat → Str) (st : DriverState) : Prop :=
  (st.currentToolCallId = none ∧ st.idCounter = 0) ∨
  (st.currentToolCallId = some (g 0) ∧ st.idCounter = 1)

/-- All tool-call deltas among the events carry the first generated
identifier. -/
def idsOk (g : Nat → Str) (evs : List ChatMessage) : Prop :=
  ∀ e ∈ evs, ∀ l, e.toolCalls = some l → ∀ d ∈ l, d.id = g 0

theorem idsOk_nil (g : Nat → Str) : idsOk g [] := by
  intro e he
  simp at he

theorem idsOk_append (g : Nat → Str) (a b : List ChatMessage)
    (ha : idsOk g a) (hb : idsOk g b) : idsOk g (a ++ b) := by
  intro e he l hl d hd
  rcases List.mem_append.mp he with h | h
  · exact ha e h l hl d hd
  · exact hb e h l hl d hd

theorem processChunk_id (g : Nat → Str) (msg : ChatMessage) (st : DriverState)
    (c : Str) (hMsg : msg.toolCalls = none) (hInv : IdOk g st) :
    (IdOk g (processChunk g msg st c).2 ∨ (processChunk g msg st c).2.done = true) ∧
    idsOk g (processChunk g msg st c).1 := by
  obtain ⟨t, cid, ca, itc, dn, buf, ctr⟩ := st
  simp only [IdOk] at hInv
  rcases hInv with ⟨h, h'⟩ | ⟨h, h'⟩ <;> (subst h; subst h') <;>
    simp only [processChunk] <;>
    (repeat' split) <;>
    refine ⟨?_, ?_⟩ <;>
    first
      | (simp [IdOk]; done)
      | (intro e he l hl d hd; simp at he; done)
      | (intro e he l hl d hd; simp only [List.mem_singleton] at he; subst he;
         simp [hMsg] at hl; done)
      | (intro e he l hl d hd; simp only [List.mem_singleton] at he; subst he;
         simp only at hl; cases hl; simp only [List.mem_singleton] at hd;
         subst hd; rfl)

end Intercept

namespace Intercept

theorem processChunks_id (g : Nat → Str) (msg : ChatMessage)
    (hMsg : msg.toolCalls = none) :
    ∀ (chunks : List Str) (st : DriverState), IdOk g st →
    (IdOk g (processChunks g msg st chunks).2 ∨
      (processChunks g msg st chunks).2.done = true) ∧
    idsOk g (processChunks g msg st chunks).1 := by
  intro chunks
  induction chunks with
  | nil => intro st h; exact ⟨Or.inl h, idsOk_nil g⟩
  | cons c cs ih =>
    intro st h
    have h1 := processChunk_id g msg st c hMsg h
    simp only [processChunks]
    by_cases hd : (processChunk g msg st c).2.done = true
    · rw [if_pos hd]
      exact ⟨Or.inr hd, h1.2⟩
    · rw [if_neg hd]
      have hok : IdOk g (processChunk g msg st c).2 := by
        rcases h1.1 with h' | h'
        · exact h'
        · exact absurd h' hd
      have h2 := ih (processChunk g msg st c).2 hok
      exact ⟨h2.1, idsOk_append g _ _ h1.2 h2.2⟩

theorem processMessage_id (g : Nat → Str) (m : ChatMessage)
    (hM : m.toolCalls = none) (st : DriverState) (h : IdOk g st) :
    (IdOk g (processMessage g st m).2 ∨ (processMessage g st m).2.done = true) ∧
    idsOk g (processMessage g st m).1 := by
  by_cases hr : m.role ≠ strL "assistant" ∨ m.toolCalls ≠ none
  · rw [interceptPassThrough g st m hr]
    refine ⟨Or.inl h, ?_⟩
    intro e he l hl d hd
    simp only [List.mem_singleton] at he
    subst he
    rw [hM] at hl
    cases hl
  · simp only [processMessage, if_neg hr]
    exact processChunks_id g m hM _ st h

theorem processBatch_id (g : Nat → Str) :
    ∀ (ms : List ChatMessage) (st : DriverState),
    (∀ m ∈ ms, m.toolCalls = none) →
    (IdOk g st ∨ st.done = true) →
    (IdOk g (processBatch g st ms).2 ∨ (processBatch g st ms).2.done = true) ∧
    idsOk g (processBatch g st ms).1 := by
  intro ms
  induction ms with
  | nil => intro st _ h; exact ⟨h, idsOk_nil g⟩
  | cons m ms ih =>
    intro st hM h
    simp only [processBatch]
    by_cases hd : st.done = true
    · rw [if_pos hd]
      exact ⟨Or.inr hd, idsOk_nil g⟩
    · rw [if_neg hd]
      have hok : IdOk g st := by
        rcases h with h' | h'
        · exact h'
        · exact absurd h' hd
      have h1 := processMessage_id g m (hM m (by simp)) st hok
      have h2 := ih (processMessage g st m).2
        (fun x hx => hM x (by simp [hx])) h1.1
      exact ⟨h2.1, idsOk_append g _ _ h1.2 h2.2⟩

theorem interceptRun_id (g : Nat → Str) (a : Option Nat) :
    ∀ (bs : List (List ChatMessage)) (st : DriverState) (i : Nat)
      (fin : Option PromptLog),
    (∀ b ∈ bs, ∀ m ∈ b, m.toolCalls = none) →
    (IdOk g st ∨ st.done = true) →
    idsOk g (interceptRun g a st i bs fin).1 := by
  intro bs
  induction bs with
  | nil => intro st i fin _ _; exact idsOk_nil g
  | cons b rest ih =>
    intro st i fin hM h
    simp only [interceptRun]
    have hst0 : IdOk g (if abortedAt a i then { st with done := true } else st) ∨
        (if abortedAt a i then { st with done := true } else st).done = true := by
      by_cases ha : abortedAt a i = true
      · simp [ha]
      · simp only [ha, Bool.false_eq_true, if_false]
        exact h
    have h1 := processBatch_id g b _ (hM b (by simp)) hst0
    have h2 := ih _ (i + 1) fin (fun x hx => hM x (by simp [hx])) h1.1
    exact idsOk_append g _ _ h1.2 h2

/-- C5 counterexample: when the tool-name element is split across
fragments, consecutive deltas of the same call (same identifier) carry
different names — the tolerant parser first resolves the name "fo" from
the unterminated element and a delta with that name is emitted, then a
later delta of the same call carries "foo": the claim that the name,
once emitted, never changes across the call's deltas is false. -/
theorem interceptNameChangeCounterexample :
    ((runText [strL "<tool_call>", strL "<tool_name>fo",
        strL "o</tool_name></tool_call>"]).1.map (fun e => e.toolCalls)) =
      [some [⟨strL "call_0", strL "fo", []⟩],
       some [⟨strL "call_0", strL "foo", []⟩],
       some [⟨strL "call_0", strL "foo", []⟩],
       some [⟨strL "call_0", strL "foo", []⟩]] ∧
    strL "fo" ≠ strL "foo" := by
  exact ⟨rfl, by decide⟩

/-- C5 (amended): every tool-call delta of a run over assistant text
carries one and the same identifier, the first one drawn from the
injected generator (generated exactly once, at the first in-call step);
but the name field of each delta is re-derived from the parse of the
current accumulated text on every step, so deltas of one call carry the
parser's current name, which can properly extend the name of an earlier
delta while the name element is still unterminated (see the
counterexample). -/
theorem interceptStableIdPerCall :
    (∀ (cs : List Str), ∀ e ∈ (runText cs).1, ∀ (l : List ToolCallDelta),
       e.toolCalls = some l → ∀ d ∈ l, d.id = defaultIdGen 0) ∧
    (∀ (g : Nat → Str) (msg : ChatMessage) (st : DriverState) (c : Str)
       (I : Str) (p : ParsedCall),
      st.inToolCall = true → st.buffer = [] →
      st.currentToolCallId = some I →
      parsePartialXml (st.toolCallText ++ c) = some p →
      ∀ e ∈ (processChunk g msg st c).1, ∀ (l : List ToolCallDelta),
        e.toolCalls = some l → ∀ d ∈ l, d.id = I ∧ d.name = p.tool_name) := by
  constructor
  · intro cs
    have h := interceptRun_id defaultIdGen none
      (cs.map (fun c => [mkAssistant c])) initialState 0 none
      (by intro b hb m hm
          simp only [List.mem_map] at hb
          obtain ⟨x, _, hx⟩ := hb
          subst hx
          simp only [List.mem_singleton] at hm
          subst hm
          rfl)
      (Or.inl (Or.inl ⟨rfl, rfl⟩))
    exact h
  · intro g msg st c I p hIn hBuf hId hp e he l hl d hd
    rw [processChunk_inCall_emit g msg st c I p hIn hBuf hId hp] at he
    simp only [List.mem_singleton] at he
    subst he
    simp only at hl
    cases hl
    simp only [List.mem_singleton] at hd
    subst hd
    exact ⟨rfl, rfl⟩

theorem interceptStableIdPerCallWitness :
    ((⟨strL "call_0", strL "foo", []⟩ : ToolCallDelta).id = defaultIdGen 0) ∧
    ((⟨strL "id0", strL "foo", []⟩ : ToolCallDelta).id = strL "id0" ∧
     (⟨strL "id0", strL "foo", []⟩ : ToolCallDelta).name =
       (⟨strL "foo", none⟩ : ParsedCall).tool_name) :=
  ⟨interceptStableIdPerCall.1
     [strL "<tool_call>", strL "<tool_name>foo</tool_name></tool_call>"]
     { mkAssistant [] with
         content := [],
         toolCalls := some [⟨strL "call_0", strL "foo", []⟩] }
     (by decide)
     [⟨strL "call_0", strL "foo", []⟩] rfl
     ⟨strL "call_0", strL "foo", []⟩ (by decide),
   interceptStableIdPerCall.2 defaultIdGen (mkAssistant [])
     { toolCallText := strL "<tool_name>foo</tool_name>",
       currentToolCallId := some (strL "id0"), currentToolCallArgs := [],
       inToolCall := true, done := false, buffer := [], idCounter := 1 }
     (strL "</tool_call>") (strL "id0") ⟨strL "foo", none⟩
     rfl rfl rfl rfl
     { mkAssistant [] with
         content := [],
         toolCalls := some [⟨strL "id0", strL "foo", []⟩] }
     (by decide)
     [⟨strL "id0", strL "foo", []⟩] rfl
     ⟨strL "id0", strL "foo", []⟩ (by decide)⟩

end Intercept

namespace Intercept

/-- The append-only side condition of the delta computer (spec section
4.4): along the chunk fold, every newly computed serialized-arguments
string extends the previously emitted one by appending (checked only on
steps where the parser resolves a result; the fold stops at the closing
marker as the driver does). -/
def appendOnlySteps : Str → Str → List Str → Bool
  | _, _, [] => true
  | t, a, c :: cs =>
    match parsePartialXml (t ++ c) with
    | none => appendOnlySteps (t ++ c) a cs
    | some p =>
      a.isPrefixOf (argsString p) &&
        (containsSubstr (t ++ c) CLOSE_MARKER ||
          appendOnlySteps (t ++ c) (argsString p) cs)

/-- The serialized-arguments string of the last successful parse along
the chunk fold: exactly the arguments string the driver has computed when
the call closes (equivalently, the serialization of parsing the full raw
accumulated call text once at the end), or the running value when the
call never closes. -/
def finalArgsStr : Str → Str → List Str → Str
  | _, a, [] => a
  | t, a, c :: cs =>
    match parsePartialXml (t ++ c) with
    | none => finalArgsStr (t ++ c) a cs
    | some p =>
      if containsSubstr (t ++ c) CLOSE_MARKER then argsString p
      else finalArgsStr (t ++ c) (argsString p) cs

theorem prefix_getStringDelta (a b : Str) (h : a.isPrefixOf b = true) :
    a ++ getStringDelta a b = b := by
  obtain ⟨tl, rfl⟩ := List.isPrefixOf_iff_prefix.mp h
  simp [getStringDelta, h, List.drop_left]

theorem deltasConcat_append (xs ys : List ChatMessage) :
    deltasConcat (xs ++ ys) = deltasConcat xs ++ deltasConcat ys := by
  induction xs with
  | nil => rfl
  | cons x xs ih => simp [deltasConcat] at ih ⊢; rw [ih]

/-- C4 (amended): provided serialization grows append-only along the run
(each newly computed serialized-arguments string extends the previous one
by appending — the assumption stated in the spec for the delta computer),
concatenating the argumentsDelta fragments emitted for the call, in
emission order, onto the arguments emitted so far reproduces exactly the
serialized arguments of the last successful parse — the serialization of
parsing the call's full raw accumulated text once at the end.  Without
that assumption the replace-from-divergence fallback breaks
reconstruction (see the counterexample). -/
theorem interceptDeltaConcatAppendOnly (g : Nat → Str) (msg : ChatMessage) :
    ∀ (chunks : List Str) (st : DriverState) (I : Str),
    st.inToolCall = true → st.done = false → st.buffer = [] →
    st.currentToolCallId = some I →
    appendOnlySteps st.toolCallText st.currentToolCallArgs chunks = true →
    st.currentToolCallArgs ++ deltasConcat (processChunks g msg st chunks).1 =
      finalArgsStr st.toolCallText st.currentToolCallArgs chunks := by
  intro chunks
  induction chunks with
  | nil =>
    intro st I h1 h2 h3 h4 h5
    simp [processChunks, deltasConcat, finalArgsStr]
  | cons c cs ih =>
    intro st I h1 h2 h3 h4 h5
    obtain ⟨t, cid, ca, itc, dn, buf, ctr⟩ := st
    simp only at h1 h2 h3 h4 h5 ⊢
    subst h1 h2 h3 h4
    simp only [appendOnlySteps] at h5
    cases hp : parsePartialXml (t ++ c) with
    | none =>
      rw [hp] at h5
      have hstep := processChunk_inCall_none g msg
        ⟨t, some I, ca, true, false, [], ctr⟩ c I rfl rfl rfl hp
      simp only at hstep
      have hih := ih ⟨t ++ c, some I, ca, true, false, [], ctr⟩ I
        rfl rfl rfl rfl h5
      simp only at hih
      simp only [processChunks, hstep, Bool.false_eq_true, if_false]
      simp only [finalArgsStr, hp]
      simpa using hih
    | some p =>
      rw [hp] at h5
      have hstep := processChunk_inCall_emit g msg
        ⟨t, some I, ca, true, false, [], ctr⟩ c I p rfl rfl rfl hp
      simp only at hstep
      simp only [Bool.and_eq_true] at h5
      rcases h5 with ⟨hPre, hRest⟩
      by_cases hC : containsSubstr (t ++ c) CLOSE_MARKER = true
      · rw [if_pos hC] at hstep
        simp [processChunks, hstep, finalArgsStr, hp, hC, deltasConcat]
        exact prefix_getStringDelta ca (argsString p) hPre
      · rw [if_neg hC] at hstep
        have hC' : containsSubstr (t ++ c) CLOSE_MARKER = false :=
          Bool.not_eq_true _ ▸ hC
        rw [hC'] at hRest
        simp only [Bool.false_or] at hRest
        have hih := ih ⟨t ++ c, some I, argsString p, true, false, [], ctr⟩ I
          rfl rfl rfl rfl hRest
        simp only at hih
        simp only [processChunks, hstep, Bool.false_eq_true, if_false]
        rw [deltasConcat_append]
        have hd : deltasConcat [({ msg with
            content := [],
            toolCalls := some [⟨I, p.tool_name,
              getStringDelta ca (argsString p)⟩] } : ChatMessage)] =
            getStringDelta ca (argsString p) := by
          simp [deltasConcat]
        rw [hd]
        simp only [finalArgsStr, hp, hC', Bool.false_eq_true, if_false]
        rw [← hih, ← List.append_assoc]
        rw [prefix_getStringDelta ca (argsString p) hPre]

theorem interceptDeltaConcatAppendOnlyWitness :
    appendOnlySteps (strL "<tool_name>foo</tool_name><args><x>7</x></args>")
      [] [strL "</tool_call>"] = true ∧
    [] ++ deltasConcat (processChunks defaultIdGen (mkAssistant [])
        { toolCallText := strL "<tool_name>foo</tool_name><args><x>7</x></args>",
          currentToolCallId := some (strL "id0"), currentToolCallArgs := [],
          inToolCall := true, done := false, buffer := [], idCounter := 1 }
        [strL "</tool_call>"]).1 =
      finalArgsStr (strL "<tool_name>foo</tool_name><args><x>7</x></args>")
        [] [strL "</tool_call>"] :=
  ⟨rfl,
   interceptDeltaConcatAppendOnly defaultIdGen (mkAssistant [])
     [strL "</tool_call>"]
     { toolCallText := strL "<tool_name>foo</tool_name><args><x>7</x></args>",
       currentToolCallId := some (strL "id0"), currentToolCallArgs := [],
       inToolCall := true, done := false, buffer := [], idCounter := 1 }
     (strL "id0") rfl rfl rfl rfl rfl⟩

/-- C4 counterexample: on the spec's own worked example (a numeric value
split as 1 then 12 across fragments), the serialized arguments do not
grow append-only, the replace-from-divergence fallback fires, and the
concatenation of the emitted argumentsDelta fragments is a string that is
not the serialization of the end parse of the call's full raw text (it is
not even well-formed JSON): the claim's equality fails. -/
theorem interceptDeltaConcatCounterexample :
    deltasConcat (runText [strL "<tool_call>",
        strL "<tool_name>foo</tool_name><args><x>1",
        strL "2</x></args></tool_call>"]).1 =
      strL "\x7b\"x\":\"\"\x7d1\x7d2\x7d" ∧
    (parsePartialXml
        (strL "<tool_name>foo</tool_name><args><x>12</x></args></tool_call>")).map
      argsString = some (strL "\x7b\"x\":12\x7d") ∧
    strL "\x7b\"x\":\"\"\x7d1\x7d2\x7d" ≠ strL "\x7b\"x\":12\x7d" := by
  exact ⟨rfl, rfl, by decide⟩

end Intercept

namespace Intercept

/-- No angle bracket occurs in the string. -/
def noAngles (s : Str) : Prop := ∀ ch ∈ s, ch ≠ '<' ∧ ch ≠ '>'

/-- A piece the splitter leaves whole: splitting it again returns it
unchanged. -/
def Atom (p : Str) : Prop := splitAtTagsAndCodeblocks p = [p]

theorem splitTagsAux_noAngles (cs : Str) :
    ∀ (a : Str), a ≠ [] → noAngles cs → splitTagsAux a cs = [a ++ cs] := by
  induction cs with
  | nil => intro a ha _; simp [splitTagsAux, ha]
  | cons c cs ih =>
    intro a ha hn
    have hc := hn c (by simp)
    simp only [splitTagsAux, if_neg hc.1, if_neg hc.2]
    rw [ih (a ++ [c]) (by simp) (fun x hx => hn x (by simp [hx]))]
    simp

theorem splitTagsAux_noAngles_gt (cs : Str) :
    ∀ (a : Str), a ≠ [] → noAngles cs →
    splitTagsAux a (cs ++ ['>']) = [a ++ cs ++ ['>']] := by
  induction cs with
  | nil =>
    intro a ha _
    simp [splitTagsAux]
  | cons c cs ih =>
    intro a ha hn
    have hc := hn c (by simp)
    simp only [List.cons_append, splitTagsAux, if_neg hc.1, if_neg hc.2,
      List.append_eq]
    rw [ih (a ++ [c]) (by simp) (fun x hx => hn x (by simp [hx]))]
    simp

/-- Shape of the splitter's internal accumulator: empty, or a head that
is not a closing bracket followed by bracket-free characters. -/
def AccOK (a : Str) : Prop :=
  a = [] ∨ ∃ c cs, a = c :: cs ∧ c ≠ '>' ∧ noAngles cs

theorem atom_flush (c : Char) (cs : Str) (hc : c ≠ '>') (hn : noAngles cs) :
    Atom (c :: cs) := by
  unfold Atom splitAtTagsAndCodeblocks
  by_cases h : c = '<'
  · subst h
    simp only [splitTagsAux, if_pos rfl]
    rw [splitTagsAux_noAngles cs ['<'] (by simp) hn]
    simp
  · simp only [splitTagsAux, if_neg h, if_neg hc, List.nil_append]
    rw [splitTagsAux_noAngles cs [c] (by simp) hn]
    simp

theorem atom_close (a : Str) (h : AccOK a) : Atom (a ++ ['>']) := by
  unfold Atom splitAtTagsAndCodeblocks
  rcases h with h | ⟨c, cs, rfl, hc, hn⟩
  · subst h
    simp [splitTagsAux]
  · by_cases h2 : c = '<'
    · subst h2
      simp only [List.cons_append, splitTagsAux, List.append_eq, List.nil_append,
        if_pos rfl, if_true]
      rw [splitTagsAux_noAngles_gt cs ['<'] (by simp) hn]
      simp
    · simp only [List.cons_append, splitTagsAux, if_neg h2, if_neg hc,
        List.append_eq, List.nil_append]
      rw [splitTagsAux_noAngles_gt cs [c] (by simp) hn]
      simp

theorem splitTagsAux_atoms (s : Str) :
    ∀ (a : Str), AccOK a → ∀ p ∈ splitTagsAux a s, Atom p := by
  induction s with
  | nil =>
    intro a hA p hp
    simp only [splitTagsAux] at hp
    by_cases ha : a = []
    · simp [ha] at hp
    · rw [if_neg ha] at hp
      simp only [List.mem_singleton] at hp
      subst hp
      rcases hA with h | ⟨c, cs, rfl, hc, hn⟩
      · exact absurd h ha
      · exact atom_flush c cs hc hn
  | cons ch s ih =>
    intro a hA p hp
    simp only [splitTagsAux] at hp
    by_cases h1 : ch = '<'
    · rw [if_pos h1] at hp
      rcases List.mem_append.mp hp with h | h
      · by_cases ha : a = []
        · simp [ha] at h
        · rw [if_neg ha] at h
          simp only [List.mem_singleton] at h
          subst h
          rcases hA with h' | ⟨c, cs, rfl, hc, hn⟩
          · exact absurd h' ha
          · exact atom_flush c cs hc hn
      · exact ih ['<'] (Or.inr ⟨'<', [], rfl, by decide, by intro x hx; simp at hx⟩) p h
    · rw [if_neg h1] at hp
      by_cases h2 : ch = '>'
      · rw [if_pos h2] at hp
        rcases List.mem_cons.mp hp with h | h
        · subst h h2
          exact atom_close a hA
        · exact ih [] (Or.inl rfl) p h
      · rw [if_neg h2] at hp
        refine ih (a ++ [ch]) ?_ p hp
        rcases hA with h | ⟨c, cs, rfl, hc, hn⟩
        · subst h
          exact Or.inr ⟨ch, [], rfl, h2, by intro x hx; simp at hx⟩
        · refine Or.inr ⟨c, cs ++ [ch], by simp, hc, ?_⟩
          intro x hx
          rcases List.mem_append.mp hx with h | h
          · exact hn x h
          · simp only [List.mem_singleton] at h
            subst h
            exact ⟨h1, h2⟩

theorem split_atoms (s : Str) :
    ∀ p ∈ splitAtTagsAndCodeblocks s, splitAtTagsAndCodeblocks p = [p] :=
  splitTagsAux_atoms s [] (Or.inl rfl)

end Intercept

namespace Intercept

theorem processChunk_mkAssistant (g : Nat → Str) (a b : Str)
    (st : DriverState) (c : Str) :
    processChunk g (mkAssistant a) st c = processChunk g (mkAssistant b) st c := rfl

theorem processChunks_single (g : Nat → Str) (m : ChatMessage)
    (st : DriverState) (c : Str) :
    processChunks g m st [c] = processChunk g m st c := by
  simp only [processChunks]
  by_cases h : (processChunk g m st c).2.done = true
  · rw [if_pos h]
  · rw [if_neg h]
    simp

theorem interceptRun_iter_irrel (g : Nat → Str) :
    ∀ (bs : List (List ChatMessage)) (st : DriverState) (i j : Nat)
      (fin : Option PromptLog),
    interceptRun g none st i bs fin = interceptRun g none st j bs fin := by
  intro bs
  induction bs with
  | nil => intro st i j fin; rfl
  | cons b rest ih =>
    intro st i j fin
    simp only [interceptRun, abortedAt, Bool.false_eq_true, if_false]
    rw [ih _ (i + 1) (j + 1)]

theorem interceptRun_none_done (g : Nat → Str) :
    ∀ (bs : List (List ChatMessage)) (st : DriverState) (i : Nat)
      (fin : Option PromptLog), st.done = true →
    interceptRun g none st i bs fin = ([], st, fin) := by
  intro bs
  induction bs with
  | nil => intro st i fin _; rfl
  | cons b rest ih =>
    intro st i fin h
    simp only [interceptRun, abortedAt, Bool.false_eq_true, if_false]
    rw [processBatch_done g b st h]
    rw [ih st (i + 1) fin h]
    rfl

theorem interceptRun_none_append (g : Nat → Str) :
    ∀ (xs ys : List (List ChatMessage)) (st : DriverState) (i : Nat)
      (fin : Option PromptLog),
    interceptRun g none st i (xs ++ ys) fin =
      ((interceptRun g none st i xs fin).1 ++
        (interceptRun g none (interceptRun g none st i xs fin).2.1 i ys fin).1,
       (interceptRun g none (interceptRun g none st i xs fin).2.1 i ys fin).2) := by
  intro xs
  induction xs with
  | nil => intro ys st i fin; simp [interceptRun]
  | cons b xs ih =>
    intro ys st i fin
    simp only [List.cons_append, interceptRun, abortedAt, Bool.false_eq_true,
      if_false, List.append_eq]
    rw [ih ys (processBatch g st b).2 (i + 1) fin]
    rw [interceptRun_iter_irrel g xs (processBatch g st b).2 (i + 1) i fin]
    simp only [List.append_assoc, Prod.mk.injEq, true_and]
    refine ⟨?_, ?_⟩ <;>
      rw [interceptRun_iter_irrel g ys _ (i + 1) i fin]

theorem mkAssistant_content (c : Str) : (mkAssistant c).content = c := rfl

theorem interceptRun_pieces (g : Nat → Str) (X : Str) :
    ∀ (ps : List Str) (st : DriverState) (i : Nat),
    (∀ p ∈ ps, splitAtTagsAndCodeblocks p = [p]) → st.done = false →
    interceptRun g none st i (ps.map (fun c => [mkAssistant c])) none =
      ((processChunks g (mkAssistant X) st ps).1,
       (processChunks g (mkAssistant X) st ps).2, none) := by
  intro ps
  induction ps with
  | nil => intro st i _ _; simp [interceptRun, processChunks]
  | cons p ps ih =>
    intro st i hAt hD
    have hrole : ¬((mkAssistant p).role ≠ strL "assistant" ∨
        (mkAssistant p).toolCalls ≠ none) := by
      simp [mkAssistant]
    simp only [List.map_cons, interceptRun, abortedAt, Bool.false_eq_true,
      if_false]
    simp only [processBatch, hD, Bool.false_eq_true, if_false]
    simp only [processMessage, if_neg hrole, mkAssistant_content]
    rw [hAt p (by simp)]
    rw [processChunks_single]
    rw [processChunk_mkAssistant g p X st p]
    by_cases hdn : (processChunk g (mkAssistant X) st p).2.done = true
    · rw [interceptRun_none_done g _ _ (i + 1) none hdn]
      simp only [processChunks, List.append_nil]
      rw [if_pos hdn]
    · rw [ih (processChunk g (mkAssistant X) st p).2 (i + 1) 
            (fun x hx => hAt x (by simp [hx]))
            (Bool.not_eq_true _ ▸ hdn)]
      simp only [processChunks]
      rw [if_neg hdn]
      simp

end Intercept

namespace Intercept

theorem interceptRun_splitAll :
    ∀ (cs : List Str) (st : DriverState) (i : Nat),
    interceptRun defaultIdGen none st i
        (cs.map (fun c => [mkAssistant c])) none =
      interceptRun defaultIdGen none st i
        ((splitAll cs).map (fun c => [mkAssistant c])) none := by
  intro cs
  induction cs with
  | nil => intro st i; rfl
  | cons c cs ih =>
    intro st i
    by_cases hD : st.done = true
    · rw [interceptRun_none_done defaultIdGen _ st i none hD,
        interceptRun_none_done defaultIdGen _ st i none hD]
    · have hD' : st.done = false := Bool.not_eq_true _ ▸ hD
      have hrole : ¬((mkAssistant c).role ≠ strL "assistant" ∨
          (mkAssistant c).toolCalls ≠ none) := by
        simp [mkAssistant]
      simp only [List.map_cons, interceptRun, abortedAt, Bool.false_eq_true,
        if_false]
      simp only [processBatch, hD', Bool.false_eq_true, if_false]
      simp only [processMessage, if_neg hrole, mkAssistant_content]
      rw [show splitAll (c :: cs) = splitAtTagsAndCodeblocks c ++ splitAll cs
        from rfl]
      rw [List.map_append]
      rw [interceptRun_none_append]
      rw [interceptRun_pieces defaultIdGen c (splitAtTagsAndCodeblocks c) st i
        (split_atoms c) hD']
      rw [ih _ (i + 1)]
      rw [interceptRun_iter_irrel defaultIdGen
        ((splitAll cs).map (fun c => [mkAssistant c])) _ (i + 1) i none]
      simp

/-- C1 (amended): re-fragmenting the upstream stream at the tag-boundary
splitter's own boundaries never changes the driver's output: delivering
each splitter piece of every chunk as its own upstream fragment produces
exactly the same events and final value as the original chunking (in
particular the single-shot run equals the run over its splitter pieces).
For arbitrary fragment boundaries the original claim is false: splitting
can change which events are emitted, not only their granularity (see the
counterexample, where one fragmentation of a text yields plain-text
passthrough of the whole text and another swallows it as a call). -/
theorem interceptSplitterRefragmentation (cs : List Str) :
    runText cs = runText (splitAll cs) := by
  simp only [runText, interceptXMLToolCalls]
  rw [interceptRun_splitAll cs initialState 0]

/-- C1 counterexample: the two fragmentations of the same full text
"<<tool_call>x" produce different observable results: delivered whole,
the run starts a call (the leading angle bracket is dropped, nothing is
ever emitted); fragmented as "<<to" / "ol_call>x" the whole text is
emitted as plain text.  The concatenation of PlainText contents plus the
reconstructed arguments differs between the two runs, refuting
fragmentation invariance. -/
theorem interceptFragmentationCounterexample :
    strL "<<to" ++ strL "ol_call>x" = strL "<<tool_call>x" ∧
    plainConcat (runText [strL "<<tool_call>x"]).1 = [] ∧
    plainConcat (runText [strL "<<to", strL "ol_call>x"]).1 =
      strL "<<tool_call>x" ∧
    deltasConcat (runText [strL "<<tool_call>x"]).1 = [] ∧
    deltasConcat (runText [strL "<<to", strL "ol_call>x"]).1 = [] ∧
    plainConcat (runText [strL "<<tool_call>x"]).1 ≠
      plainConcat (runText [strL "<<to", strL "ol_call>x"]).1 := by
  refine ⟨rfl, rfl, rfl, rfl, rfl, ?_⟩
  decide

end Intercept
